import Mathlib

/-!
Verification of the train-report bot (`src/app.py`) against its specification.

The embedding below translates the pure logic of `app.py` into Lean:

* Epoch timestamps are modelled as `Nat` seconds.  The source stores Python float
  timestamps; sub-second precision plays no part in any of the verified
  operations (minute truncation, half-open range filters, minima and ordering
  are all decided at whole-second granularity or coarser).
* The MongoDB collection is modelled as a `List Report`; `find` / `delete_one`
  are translated to the corresponding list operations with first-match
  semantics, matching MongoDB's `delete_one` (deletes at most one document).
* Python insertion-ordered dicts used for grouping are modelled as association
  lists whose update function increments the first (unique) matching entry and
  otherwise appends, which is exactly the observable behaviour of
  `dict` accumulation in the source.
* `sorted(..., key=k)` / `sorted(..., key=k, reverse=True)` are modelled by a
  stable insertion sort `sortBy` over a boolean "may stay before" relation.
* Time-of-day values (`"HH:MM"` strings in the source) are modelled as minutes
  since midnight (`Nat < 1440`).  For zero-padded two-digit fields the source's
  lexicographic string comparisons of `"HH:MM"` agree with numeric order on
  `h * 60 + m`, and `datetime.time` comparison is likewise lexicographic on
  (hour, minute), so all comparisons in the source transport to `Nat` order.
-/

/-- Direction constant `DIRECTION_GO = "go"` from `app.py`. -/
def DIRECTION_GO : String := "go"

/-- Direction constant `DIRECTION_RETURN = "return"` from `app.py`. -/
def DIRECTION_RETURN : String := "return"

/-- One stored report document, as written by `save_report_to_db` in `app.py`:
`_id` (stringified ObjectId), `station`, `direction`, `timestamp` (epoch
seconds) and `user_id` of the creator.  The derived `time` display string is a
lossy projection of `timestamp` and is not needed by any claim. -/
structure Report where
  id : String
  station : String
  direction : String
  timestamp : Nat
  userId : String
deriving DecidableEq, Repr

/-- Lookup of a document by `_id`, the store-boundary `findOne`. -/
def find_one (store : List Report) (i : String) : Option Report :=
  store.find? (fun r => r.id == i)

/-- MongoDB `delete_one({"_id": i})`: removes the first document whose id
matches and reports the number of deleted documents (0 or 1). -/
def delete_one : List Report → String → Nat × List Report
  | [], _ => (0, [])
  | r :: rest, i =>
    if r.id = i then (1, rest)
    else
      let p := delete_one rest i
      (p.1, r :: p.2)

/-- Hexadecimal character test used by `bson.ObjectId.is_valid` on strings. -/
def isHexChar (c : Char) : Bool :=
  c.isDigit || (('a' ≤ c) && (c ≤ 'f')) || (('A' ≤ c) && (c ≤ 'F'))

/-- Validity test for a stringified ObjectId, modelling
`bson.ObjectId.is_valid(report_id)` for string arguments: exactly 24
hexadecimal characters. -/
def is_valid_object_id (s : String) : Bool :=
  s.data.length == 24 && s.data.all isHexChar

/-- Translation of `delete_report_from_db` (`app.py` lines 296-319): an
invalid ObjectId string is rejected up front and the function returns `False`
without touching the store; otherwise `delete_one` runs and success is
`deleted_count > 0`. -/
def delete_report_from_db (store : List Report) (report_id : String) : Bool × List Report :=
  if is_valid_object_id report_id then
    let p := delete_one store report_id
    (decide (0 < p.1), p.2)
  else
    (false, store)

/-- Translation of the `confirm_delete_my_report_` branch of `handle_callback`
(`app.py` lines 354-366): the report id parsed from the callback data is passed
to `delete_report_from_db` alone.  The requesting user's id is in scope in the
handler but takes no part in the deletion, which is why the binder below is
unused. -/
def handle_confirm_delete (store : List Report) (requesterId : String)
    (report_id : String) : Bool × List Report :=
  delete_report_from_db store report_id

/-- Lookup `sched.get(station, [])` over a direction's timetable, an ordered
association list from station name to its list of departure times (minutes
since midnight). -/
def scheduleGet (sched : List (String × List Nat)) (station : String) : List Nat :=
  match sched.find? (fun p => p.1 == station) with
  | some p => p.2
  | none => []

/-- Translation of `next((t for t in schedule if str_to_time(t) > now), None)`
from the `station_` branch of `handle_callback` (`app.py` lines 634-658): the
first timetable entry strictly greater than the reference time of day. -/
def nextDeparture (sched : List (String × List Nat)) (station : String) (ref : Nat) :
    Option Nat :=
  (scheduleGet sched station).find? (fun t => decide (ref < t))

/-- Character-list prefix test; semantically `data.startswith(pre)` from the
source.  The builtin `String.startsWith` is extensionally the same function but
is opaque to kernel evaluation, so the embedding works on `String.data`. -/
def strStartsWith (s pre : String) : Bool :=
  pre.data.isPrefixOf s.data

/-- Drop the first `n` characters of a string; semantically Python's
`data.split("_", k)[k]` tail extraction once the prefix up to the k-th
underscore is known to be exactly `n` characters long. -/
def strDrop (s : String) (n : Nat) : String :=
  ⟨s.data.drop n⟩

/-- Observable outcome of the `station_` branch of `handle_callback`: either
the "next train" message for a station (with `none` standing for the "no trains
remaining" message) or the final `else` "unknown command" reply. -/
inductive CallbackOutcome where
  | trainMsg (station : String) (next : Option Nat)
  | unknownCommand
deriving DecidableEq, Repr

/-- Translation of the `station_` dispatch of `handle_callback` (`app.py`
lines 634-658): the station is whatever follows `station_` in the callback
data (`data.split("_", 1)[1]`), with no membership validation; the direction
is read from user data, and anything other than `DIRECTION_GO` — including an
unset direction — selects the return schedule.  Any other callback data falls
through to the final `else` branch. -/
def handle_station_callback (goSched retSched : List (String × List Nat))
    (userDirection : Option String) (data : String) (now : Nat) : CallbackOutcome :=
  if strStartsWith data "station_" then
    let station := strDrop data 8
    if userDirection == some DIRECTION_GO then
      CallbackOutcome.trainMsg station (nextDeparture goSched station now)
    else
      CallbackOutcome.trainMsg station (nextDeparture retSched station now)
  else
    CallbackOutcome.unknownCommand

/-- Translation of the `report_station_` branch (`app.py` lines 394-397): the
station is `data.split("_", 2)[2]` and is stored into user data unvalidated;
the branch applies only to data carrying the `report_station_` tag. -/
def handle_report_station (data : String) : Option String :=
  if strStartsWith data "report_station_" then some (strDrop data 15) else none

/-- Current UTC offset of `Africa/Algiers` in seconds: CET, +01:00, with no
daylight-saving transitions (constant since 1981).  This is the offset
`datetime.now(ALGERIA_TZ)` and `datetime.fromtimestamp(ts, ALGERIA_TZ)`
correctly apply. -/
def ALGIERS_UTC_OFFSET : Nat := 3600

/-- UTC offset in seconds that `datetime.replace(tzinfo=ALGERIA_TZ)` attaches
with a `pytz` zone object: `pytz.timezone(...)` carries the zone's first
(local-mean-time) offset until `localize` is called, and `replace` never calls
`localize`.  For `Africa/Algiers` the tzdata LMT offset is +0:12:12, which
`pytz` rounds to whole minutes, giving +0:12:00 = 720 seconds. -/
def PYTZ_REPLACE_OFFSET : Nat := 720

/-- Translation of `get_current_day_range_in_algeria` (`app.py` lines 94-106)
as a function of the current epoch second.  `datetime.now(ALGERIA_TZ)` yields
the correct local wall clock (offset +3600); `datetime.combine(date, time.min)`
is naive local midnight; `.replace(tzinfo=ALGERIA_TZ).timestamp()` converts it
back to an epoch using the LMT offset 720 rather than 3600; the exclusive end
adds `timedelta(days=1)`, which on the attached fixed offset is exactly 86400
seconds. -/
def get_current_day_range_in_algeria (now : Nat) : Nat × Nat :=
  let wall := now + ALGIERS_UTC_OFFSET
  let midnightWall := wall / 86400 * 86400
  (midnightWall - PYTZ_REPLACE_OFFSET, midnightWall - PYTZ_REPLACE_OFFSET + 86400)

/-- Modelled from the spec: `DayWindow.currentWindow` per §4.3 — `startInclusive`
is the epoch second of true local midnight of "now" in the fixed timezone
(offset +3600 for Africa/Algiers), `endExclusive` is `startInclusive + 24h`
(24h = 86400s here since the zone has no daylight-saving transitions).  Stated
for comparison with `get_current_day_range_in_algeria`. -/
def currentWindowSpec (now : Nat) : Nat × Nat :=
  let wall := now + ALGIERS_UTC_OFFSET
  let midnightWall := wall / 86400 * 86400
  (midnightWall - ALGIERS_UTC_OFFSET, midnightWall - ALGIERS_UTC_OFFSET + 86400)

/-- Translation of `get_all_reports_from_db_filtered` (`app.py` lines 110-128):
the Mongo query keeps reports with `start <= timestamp < end` for the current
day range, and additionally filters on equality of `direction` when one is
supplied. -/
def get_all_reports_from_db_filtered (store : List Report) (now : Nat)
    (direction : Option String) : List Report :=
  let range := get_current_day_range_in_algeria now
  store.filter (fun r =>
    (decide (range.1 ≤ r.timestamp) && decide (r.timestamp < range.2)) &&
    (match direction with
     | some d => r.direction == d
     | none => true))

/-- One output row of `group_reports_by_minute`: station, direction, the
minute-truncated timestamp (epoch minutes, i.e. `timestamp // 60`) and the
number of reports collapsed into that bucket.  The source renders the minute
key as an `"HH:MM"` string; `minuteKey` retains the full minute so that the
grouping key is exactly the source's `(station, direction, minute_key)`. -/
structure GroupEntry where
  station : String
  direction : String
  minuteKey : Nat
  count : Nat
deriving DecidableEq, Repr

/-- Composite grouping key of a report: `(station, direction, timestamp
truncated to the minute)`.  Truncating `datetime.fromtimestamp(ts, tz)` to the
minute corresponds to `ts // 60` in epoch minutes because the zone offset is a
whole number of minutes. -/
def rkey (r : Report) : String × String × Nat :=
  (r.station, r.direction, r.timestamp / 60)

/-- Composite key of a group entry, for matching against report keys. -/
def ekey (e : GroupEntry) : String × String × Nat :=
  (e.station, e.direction, e.minuteKey)

/-- One step of the grouping loop in `group_reports_by_minute` (`app.py` lines
158-174): if the insertion-ordered dict already holds the report's key the
matching entry's count is incremented, otherwise a fresh entry with count 1 is
appended. -/
def addReport : List GroupEntry → Report → List GroupEntry
  | [], r => [⟨r.station, r.direction, r.timestamp / 60, 1⟩]
  | e :: es, r =>
    if ekey e = rkey r then ⟨e.station, e.direction, e.minuteKey, e.count + 1⟩ :: es
    else e :: addReport es r

/-- Time of day (minutes since local midnight) displayed for a group entry:
the `"HH:MM"` string produced by `strftime` in the Algiers zone corresponds to
`(epochMinutes + 60) % 1440` minutes (offset +01:00, no DST). -/
def entryTimeOfDay (e : GroupEntry) : Nat :=
  (e.minuteKey + 60) % 1440

/-- Stable insertion of `a` into `l`, keeping every `b` with `r b a = true`
(read: `b` may stay in front of `a`) before `a`. -/
def sInsert (r : α → α → Bool) (a : α) : List α → List α
  | [] => [a]
  | b :: bs => if r b a then b :: sInsert r a bs else a :: b :: bs

/-- Stable sort by repeated insertion, modelling Python's stable `sorted`: an
element arriving later is placed after every earlier element that compares
less-or-equal to it. -/
def sortBy (r : α → α → Bool) (l : List α) : List α :=
  l.foldl (fun acc a => sInsert r a acc) []

/-- Translation of `group_reports_by_minute` (`app.py` lines 151-179): fold the
reports into the keyed accumulator, then sort the entries by displayed time of
day, newest first (`sorted(..., key=lambda x: x['time_str'], reverse=True)`;
lexicographic order on zero-padded `"HH:MM"` strings is numeric order on
minutes since midnight). -/
def group_reports_by_minute (reports : List Report) : List GroupEntry :=
  sortBy (fun e1 e2 => decide (entryTimeOfDay e2 ≤ entryTimeOfDay e1))
    (reports.foldl addReport [])

/-- Deduplication pass with an explicit seen set, keeping first occurrences in
order — the loop shape used by `get_all_stations_ordered` (`app.py` lines
182-199) and by insertion-ordered dict key collection. -/
def dedupKeep (seen : List String) : List String → List String
  | [] => []
  | s :: rest =>
    if s ∈ seen then dedupKeep seen rest else s :: dedupKeep (s :: seen) rest

/-- Deduplicate a list of station names keeping first occurrences. -/
def dedupFirst (l : List String) : List String :=
  dedupKeep [] l

/-- Translation of `get_all_stations_ordered` (`app.py` lines 182-199): go
stations first, then return stations, one shared seen set; a single pass over
the concatenation with the shared seen set performs the identical appends in
the identical order. -/
def get_all_stations_ordered (goStations returnStations : List String) : List String :=
  dedupFirst (goStations ++ returnStations)

/-- Minimum timestamp of a list of reports, 0 for the empty list (never
consulted on empty groups): `min(reports, key=lambda r: r['timestamp'])`
followed by `['timestamp']` in the source. -/
def minTimestamp : List Report → Nat
  | [] => 0
  | r :: rest => rest.foldl (fun m x => min m x.timestamp) r.timestamp

/-- Earliest sighting time of a station within a report snapshot:
`station_earliest_times[station]` from `app.py` lines 512-517. -/
def earliestSighting (rs : List Report) (s : String) : Nat :=
  minTimestamp (rs.filter (fun r => r.station == s))

/-- Translation of steps 2-4 of the `view_reports_direction_*` branch
(`app.py` lines 504-520): group the direction's reports by station (dict keys
in first-occurrence order), compute each station's earliest report timestamp,
and sort the stations ascending by that minimum with Python's stable sort. -/
def sorted_stations_by_time (rs : List Report) : List String :=
  sortBy (fun a b => decide (earliestSighting rs a ≤ earliestSighting rs b))
    (dedupFirst (rs.map (fun r => r.station)))

/-- Modelled from the spec: vote values `{UP, DOWN}` of §4.5.  The repository
holds no voting code under `src/` (no vote, tally or userVotes logic appears in
`app.py`), so the CredibilityEngine is modelled from the specification text. -/
inductive Vote where
  | up
  | down
deriving DecidableEq, Repr

/-- Modelled from the spec: the per-report credibility state of §3 — cached
counters `upvotes`, `downvotes`, and the per-user vote record `userVotes` with
at most one entry per user. -/
structure VoteState where
  upvotes : Nat
  downvotes : Nat
  userVotes : List (String × Vote)
deriving DecidableEq, Repr

/-- Modelled from the spec: `currentVote(reportId, userId)`, the read-only
projection of `userVotes` (§4.5 step 1). -/
def currentVote (s : VoteState) (u : String) : Option Vote :=
  (s.userVotes.find? (fun p => p.1 == u)).map (fun p => p.2)

/-- Update of the per-user vote record: set `userVotes[userId] = vote` for a
user that already has an entry. -/
def setUserVote (uv : List (String × Vote)) (u : String) (v : Vote) :
    List (String × Vote) :=
  uv.map (fun p => if p.1 == u then (p.1, v) else p)

/-- Modelled from the spec: `castVote(reportId, userId, vote)` of §4.5 — read
the user's current vote; an equal stored vote is a no-op; otherwise apply the
signed delta (`None→UP` is `(+1,0)`, `None→DOWN` is `(0,+1)`, `UP→DOWN` is
`(-1,+1)`, `DOWN→UP` is `(+1,-1)`) and set `userVotes[userId] = vote`. -/
def castVote (s : VoteState) (u : String) (v : Vote) : VoteState :=
  match currentVote s u with
  | none =>
    match v with
    | Vote.up => ⟨s.upvotes + 1, s.downvotes, (u, Vote.up) :: s.userVotes⟩
    | Vote.down => ⟨s.upvotes, s.downvotes + 1, (u, Vote.down) :: s.userVotes⟩
  | some v0 =>
    if v0 = v then s
    else
      match v with
      | Vote.up => ⟨s.upvotes + 1, s.downvotes - 1, setUserVote s.userVotes u Vote.up⟩
      | Vote.down => ⟨s.upvotes - 1, s.downvotes + 1, setUserVote s.userVotes u Vote.down⟩

/-- Number of UP entries in a vote record. -/
def upCount (uv : List (String × Vote)) : Nat :=
  uv.countP (fun p => p.2 == Vote.up)

/-- Number of DOWN entries in a vote record. -/
def downCount (uv : List (String × Vote)) : Nat :=
  uv.countP (fun p => p.2 == Vote.down)

/-- Invariant of §3: the cached counters agree with the aggregate of
`userVotes`, and the record holds at most one entry per user. -/
def VoteInv (s : VoteState) : Prop :=
  s.upvotes = upCount s.userVotes ∧ s.downvotes = downCount s.userVotes ∧
    (s.userVotes.map Prod.fst).Nodup

/-- Freshly created report: zero tallies, empty vote record. -/
def freshVoteState : VoteState :=
  ⟨0, 0, []⟩

/-- Replay of a sequence of `(userId, vote)` casts against a report state. -/
def applyVotes (ops : List (String × Vote)) (s : VoteState) : VoteState :=
  ops.foldl (fun st p => castVote st p.1 p.2) s

/-- Concrete report used by closed evaluation theorems: a syntactically valid
ObjectId created by user `"1111"`. -/
def demoReport : Report :=
  ⟨"507f1f77bcf86cd799439011", "Agha", DIRECTION_GO, 1699920000, "1111"⟩

/-- Concrete report whose `createdAt` is exactly local midnight in Algiers
(epoch 1699916400 = 2023-11-14T00:00:00+01:00). -/
def midnightReport : Report :=
  ⟨"507f1f77bcf86cd799439012", "Agha", DIRECTION_GO, 1699916400, "1111"⟩

/-- Aggregate count attributed to a grouping key inside an accumulator:
the sum of the `count` fields of the entries carrying that key. -/
def entriesCount (acc : List GroupEntry) (k : String × String × Nat) : Nat :=
  ((acc.filter (fun e => decide (ekey e = k))).map (fun e => e.count)).sum

/-- Number of entries of an accumulator carrying a given grouping key. -/
def occK (acc : List GroupEntry) (k : String × String × Nat) : Nat :=
  acc.countP (fun e => decide (ekey e = k))

/-- Number of reports of a snapshot falling into a given grouping key, i.e.
the size of that key's partition. -/
def reportCountK (rs : List Report) (k : String × String × Nat) : Nat :=
  rs.countP (fun r => decide (rkey r = k))

theorem sInsert_perm (r : α → α → Bool) (a : α) :
    ∀ l : List α, (sInsert r a l).Perm (a :: l)
  | [] => List.Perm.refl _
  | b :: bs => by
    cases h : r b a with
    | true =>
      simp only [sInsert, h, if_true]
      exact ((sInsert_perm r a bs).cons b).trans (List.Perm.swap a b bs)
    | false =>
      simp only [sInsert, h]
      exact List.Perm.refl _

theorem foldl_sInsert_perm (r : α → α → Bool) :
    ∀ (l acc : List α), (l.foldl (fun acc a => sInsert r a acc) acc).Perm (acc ++ l)
  | [], acc => by simp
  | a :: l, acc => by
    simp only [List.foldl_cons]
    exact (foldl_sInsert_perm r l (sInsert r a acc)).trans
      (((sInsert_perm r a acc).append_right l).trans List.perm_middle.symm)

theorem sortBy_perm (r : α → α → Bool) (l : List α) : (sortBy r l).Perm l := by
  simpa [sortBy] using foldl_sInsert_perm r l []

theorem sInsert_pairwise (r : α → α → Bool)
    (htot : ∀ a b, r a b = true ∨ r b a = true)
    (htrans : ∀ a b c, r a b = true → r b c = true → r a c = true) (a : α) :
    ∀ l : List α, l.Pairwise (fun x y => r x y = true) →
      (sInsert r a l).Pairwise (fun x y => r x y = true)
  | [], _ => by simp [sInsert]
  | b :: bs, h => by
    rw [List.pairwise_cons] at h
    obtain ⟨hb, hbs⟩ := h
    cases hra : r b a with
    | true =>
      simp only [sInsert, hra, if_true]
      rw [List.pairwise_cons]
      refine ⟨?head, sInsert_pairwise r htot htrans a bs hbs⟩
      intro x hx
      rcases List.mem_cons.mp ((sInsert_perm r a bs).mem_iff.mp hx) with hxa | hxbs
      · exact hxa ▸ hra
      · exact hb x hxbs
    | false =>
      have hab : r a b = true := by
        rcases htot a b with h1 | h1
        · exact h1
        · rw [h1] at hra; exact absurd hra (by simp)
      simp only [sInsert, hra, Bool.false_eq_true, if_false]
      rw [List.pairwise_cons]
      refine ⟨?head2, by rw [List.pairwise_cons]; exact ⟨hb, hbs⟩⟩
      intro x hx
      rcases List.mem_cons.mp hx with hxb | hxbs
      · exact hxb ▸ hab
      · exact htrans a b x hab (hb x hxbs)

theorem foldl_sInsert_pairwise (r : α → α → Bool)
    (htot : ∀ a b, r a b = true ∨ r b a = true)
    (htrans : ∀ a b c, r a b = true → r b c = true → r a c = true) :
    ∀ (l acc : List α), acc.Pairwise (fun x y => r x y = true) →
      (l.foldl (fun acc a => sInsert r a acc) acc).Pairwise (fun x y => r x y = true)
  | [], _, h => h
  | a :: l, acc, h =>
    foldl_sInsert_pairwise r htot htrans l (sInsert r a acc)
      (sInsert_pairwise r htot htrans a acc h)

theorem sortBy_pairwise (r : α → α → Bool)
    (htot : ∀ a b, r a b = true ∨ r b a = true)
    (htrans : ∀ a b c, r a b = true → r b c = true → r a c = true) (l : List α) :
    (sortBy r l).Pairwise (fun x y => r x y = true) :=
  foldl_sInsert_pairwise r htot htrans l [] List.Pairwise.nil

theorem find?_split (p : α → Bool) :
    ∀ (l : List α) (a : α), l.find? p = some a →
      p a = true ∧ ∃ l1 l2, l = l1 ++ a :: l2 ∧ ∀ x ∈ l1, p x = false
  | [], a, h => by simp [List.find?] at h
  | b :: bs, a, h => by
    cases hpb : p b with
    | true =>
      rw [List.find?_cons_of_pos bs hpb] at h
      obtain rfl : b = a := Option.some.inj h
      exact ⟨hpb, [], bs, rfl, by simp⟩
    | false =>
      rw [List.find?_cons_of_neg bs (by simp [hpb])] at h
      obtain ⟨hpa, l1, l2, heq, hall⟩ := find?_split p bs a h
      refine ⟨hpa, b :: l1, l2, by rw [heq]; rfl, ?_⟩
      intro x hx
      rcases List.mem_cons.mp hx with rfl | hx2
      · exact hpb
      · exact hall x hx2

theorem dedupKeep_mem :
    ∀ (l seen : List String) (x : String), x ∈ dedupKeep seen l ↔ x ∈ l ∧ x ∉ seen
  | [], seen, x => by simp [dedupKeep]
  | s :: rest, seen, x => by
    by_cases hs : s ∈ seen
    · rw [dedupKeep, if_pos hs, dedupKeep_mem rest seen x]
      constructor
      · rintro ⟨hx1, hx2⟩
        exact ⟨List.mem_cons_of_mem s hx1, hx2⟩
      · rintro ⟨hx1, hx2⟩
        rcases List.mem_cons.mp hx1 with rfl | hx3
        · exact absurd hs hx2
        · exact ⟨hx3, hx2⟩
    · rw [dedupKeep, if_neg hs]
      constructor
      · intro hx
        rcases List.mem_cons.mp hx with rfl | hx2
        · exact ⟨List.mem_cons_self x rest, hs⟩
        · obtain ⟨h1, h2⟩ := (dedupKeep_mem rest (s :: seen) x).mp hx2
          exact ⟨List.mem_cons_of_mem s h1, fun hxs => h2 (List.mem_cons_of_mem s hxs)⟩
      · rintro ⟨hx1, hx2⟩
        rcases List.mem_cons.mp hx1 with rfl | hx3
        · exact List.mem_cons_self x _
        · by_cases hxs : x = s
          · subst hxs; exact List.mem_cons_self x _
          · refine List.mem_cons_of_mem s ((dedupKeep_mem rest (s :: seen) x).mpr ⟨hx3, ?_⟩)
            intro hmem
            rcases List.mem_cons.mp hmem with h | h
            · exact hxs h
            · exact hx2 h

theorem dedupKeep_nodup : ∀ (l seen : List String), (dedupKeep seen l).Nodup
  | [], _ => List.nodup_nil
  | s :: rest, seen => by
    by_cases hs : s ∈ seen
    · rw [dedupKeep, if_pos hs]
      exact dedupKeep_nodup rest seen
    · rw [dedupKeep, if_neg hs]
      rw [List.nodup_cons]
      refine ⟨fun hmem => ?_, dedupKeep_nodup rest (s :: seen)⟩
      exact ((dedupKeep_mem rest (s :: seen) s).mp hmem).2 (List.mem_cons_self s seen)

theorem dedupKeep_sublist : ∀ (l seen : List String), List.Sublist (dedupKeep seen l) l
  | [], _ => List.Sublist.refl []
  | s :: rest, seen => by
    by_cases hs : s ∈ seen
    · rw [dedupKeep, if_pos hs]
      exact (dedupKeep_sublist rest seen).cons s
    · rw [dedupKeep, if_neg hs]
      exact (dedupKeep_sublist rest (s :: seen)).cons₂ s

theorem dedupKeep_pairwise_indexOf :
    ∀ (l seen : List String),
      (dedupKeep seen l).Pairwise (fun x y => l.indexOf x < l.indexOf y)
  | [], _ => List.Pairwise.nil
  | s :: rest, seen => by
    by_cases hs : s ∈ seen
    · rw [dedupKeep, if_pos hs]
      refine (dedupKeep_pairwise_indexOf rest seen).imp_of_mem ?_
      intro x y hx hy hlt
      have hxs : s ≠ x := by
        intro h
        exact ((dedupKeep_mem rest seen x).mp hx).2 (h ▸ hs)
      have hys : s ≠ y := by
        intro h
        exact ((dedupKeep_mem rest seen y).mp hy).2 (h ▸ hs)
      rw [List.indexOf_cons_ne rest hxs, List.indexOf_cons_ne rest hys]
      omega
    · rw [dedupKeep, if_neg hs]
      rw [List.pairwise_cons]
      constructor
      · intro y hy
        have hys : s ≠ y := by
          intro h
          exact ((dedupKeep_mem rest (s :: seen) y).mp hy).2 (h ▸ List.mem_cons_self s seen)
        rw [List.indexOf_cons_self, List.indexOf_cons_ne rest hys]
        omega
      · refine (dedupKeep_pairwise_indexOf rest (s :: seen)).imp_of_mem ?_
        intro x y hx hy hlt
        have hxs : s ≠ x := by
          intro h
          exact ((dedupKeep_mem rest (s :: seen) x).mp hx).2 (h ▸ List.mem_cons_self s seen)
        have hys : s ≠ y := by
          intro h
          exact ((dedupKeep_mem rest (s :: seen) y).mp hy).2 (h ▸ List.mem_cons_self s seen)
        rw [List.indexOf_cons_ne rest hxs, List.indexOf_cons_ne rest hys]
        omega

theorem foldl_min_le_init :
    ∀ (l : List Report) (t : Nat), l.foldl (fun m x => min m x.timestamp) t ≤ t
  | [], t => le_refl t
  | r :: rest, t =>
    le_trans (foldl_min_le_init rest (min t r.timestamp)) (min_le_left t r.timestamp)

theorem foldl_min_le_mem :
    ∀ (l : List Report) (t : Nat) (x : Report), x ∈ l →
      l.foldl (fun m x => min m x.timestamp) t ≤ x.timestamp
  | r :: rest, t, x, hx => by
    rcases List.mem_cons.mp hx with rfl | hx2
    · exact le_trans (foldl_min_le_init rest (min t x.timestamp))
        (min_le_right t x.timestamp)
    · exact foldl_min_le_mem rest (min t r.timestamp) x hx2

theorem foldl_min_attained :
    ∀ (l : List Report) (t : Nat),
      l.foldl (fun m x => min m x.timestamp) t = t
      ∨ ∃ x ∈ l, l.foldl (fun m x => min m x.timestamp) t = x.timestamp
  | [], t => Or.inl rfl
  | r :: rest, t => by
    rcases foldl_min_attained rest (min t r.timestamp) with h | ⟨x, hx, h⟩
    · rcases min_choice t r.timestamp with hm | hm
      · exact Or.inl (by rw [List.foldl_cons, h, hm])
      · exact Or.inr ⟨r, List.mem_cons_self r rest, by rw [List.foldl_cons, h, hm]⟩
    · exact Or.inr ⟨x, List.mem_cons_of_mem r hx, by rw [List.foldl_cons, h]⟩

theorem minTimestamp_spec (l : List Report) (hne : l ≠ []) :
    (∃ r ∈ l, r.timestamp = minTimestamp l) ∧ ∀ r ∈ l, minTimestamp l ≤ r.timestamp := by
  match l, hne with
  | r :: rest, _ =>
    constructor
    · rcases foldl_min_attained rest r.timestamp with h | ⟨x, hx, h⟩
      · exact ⟨r, List.mem_cons_self r rest, by rw [minTimestamp, h]⟩
      · exact ⟨x, List.mem_cons_of_mem r hx, by rw [minTimestamp, h]⟩
    · intro x hx
      rcases List.mem_cons.mp hx with rfl | hx2
      · exact foldl_min_le_init rest x.timestamp
      · exact foldl_min_le_mem rest r.timestamp x hx2

theorem addReport_sum :
    ∀ (acc : List GroupEntry) (r : Report),
      ((addReport acc r).map (fun e => e.count)).sum = (acc.map (fun e => e.count)).sum + 1
  | [], r => by simp [addReport]
  | e :: es, r => by
    by_cases h : ekey e = rkey r
    · simp only [addReport, if_pos h, List.map_cons, List.sum_cons]
      omega
    · simp only [addReport, if_neg h, List.map_cons, List.sum_cons, addReport_sum es r]
      omega


theorem occK_cons (e : GroupEntry) (es : List GroupEntry) (k : String × String × Nat) :
    occK (e :: es) k = occK es k + (if ekey e = k then 1 else 0) := by
  by_cases h : ekey e = k
  · simp [occK, List.countP_cons, decide_eq_true h, h]
  · simp [occK, List.countP_cons, decide_eq_false h, h]

theorem entriesCount_cons (e : GroupEntry) (es : List GroupEntry) (k : String × String × Nat) :
    entriesCount (e :: es) k = (if ekey e = k then e.count else 0) + entriesCount es k := by
  by_cases h : ekey e = k
  · simp [entriesCount, List.filter_cons, decide_eq_true h, h]
  · simp [entriesCount, List.filter_cons, decide_eq_false h, h]

theorem reportCountK_cons (r : Report) (rs : List Report) (k : String × String × Nat) :
    reportCountK (r :: rs) k = reportCountK rs k + (if rkey r = k then 1 else 0) := by
  by_cases h : rkey r = k
  · simp [reportCountK, List.countP_cons, decide_eq_true h, h]
  · simp [reportCountK, List.countP_cons, decide_eq_false h, h]

theorem addReport_nil_eq (r : Report) :
    addReport [] r = [⟨r.station, r.direction, r.timestamp / 60, 1⟩] := rfl

theorem addReport_cons_eq (e : GroupEntry) (es : List GroupEntry) (r : Report) :
    addReport (e :: es) r =
      if ekey e = rkey r then ⟨e.station, e.direction, e.minuteKey, e.count + 1⟩ :: es
      else e :: addReport es r := rfl

theorem ekey_fresh (r : Report) :
    ekey (⟨r.station, r.direction, r.timestamp / 60, 1⟩ : GroupEntry) = rkey r := rfl

theorem ekey_bump (e : GroupEntry) :
    ekey (⟨e.station, e.direction, e.minuteKey, e.count + 1⟩ : GroupEntry) = ekey e := rfl

theorem addReport_cnt :
    ∀ (acc : List GroupEntry) (r : Report) (k : String × String × Nat),
      entriesCount (addReport acc r) k =
        entriesCount acc k + (if rkey r = k then 1 else 0)
  | [], r, k => by
    rw [addReport_nil_eq, entriesCount_cons, ekey_fresh]
    by_cases h : rkey r = k
    · simp only [if_pos h]
      show 1 + entriesCount [] k = entriesCount [] k + 1
      omega
    · simp only [if_neg h]
      omega
  | e :: es, r, k => by
    have IH := addReport_cnt es r k
    by_cases h1 : ekey e = rkey r
    · rw [addReport_cons_eq, if_pos h1, entriesCount_cons, entriesCount_cons, ekey_bump]
      by_cases h3 : ekey e = k
      · have hk : rkey r = k := h1.symm.trans h3
        simp only [if_pos h3, if_pos hk]
        show e.count + 1 + entriesCount es k = e.count + entriesCount es k + 1
        omega
      · have hk : ¬ rkey r = k := fun hkk => h3 (h1.trans hkk)
        simp only [if_neg h3, if_neg hk]
        omega
    · rw [addReport_cons_eq, if_neg h1, entriesCount_cons, entriesCount_cons, IH]
      omega

theorem addReport_occ :
    ∀ (acc : List GroupEntry) (r : Report) (k : String × String × Nat),
      occK (addReport acc r) k =
        if rkey r = k ∧ occK acc (rkey r) = 0 then occK acc k + 1 else occK acc k
  | [], r, k => by
    rw [addReport_nil_eq, occK_cons, ekey_fresh]
    by_cases h : rkey r = k
    · rw [if_pos h,
        if_pos (show rkey r = k ∧ occK ([] : List GroupEntry) (rkey r) = 0 from ⟨h, rfl⟩)]
    · rw [if_neg h, if_neg (fun hc => h hc.1)]
      omega
  | e :: es, r, k => by
    by_cases h1 : ekey e = rkey r
    · have hcond : ¬ (rkey r = k ∧ occK (e :: es) (rkey r) = 0) := by
        rintro ⟨-, hz⟩
        rw [occK_cons, if_pos h1] at hz
        omega
      rw [if_neg hcond, addReport_cons_eq, if_pos h1,
        occK_cons (⟨e.station, e.direction, e.minuteKey, e.count + 1⟩ : GroupEntry) es k,
        occK_cons e es k, ekey_bump]
    · have IH := addReport_occ es r k
      have hocc : occK (e :: es) (rkey r) = occK es (rkey r) := by
        rw [occK_cons, if_neg h1]
        omega
      rw [addReport_cons_eq, if_neg h1, occK_cons e (addReport es r) k, IH, hocc,
        occK_cons e es k]
      by_cases hc : rkey r = k ∧ occK es (rkey r) = 0
      · rw [if_pos hc, if_pos hc]
        omega
      · rw [if_neg hc, if_neg hc]

theorem foldl_addReport_sum :
    ∀ (rs : List Report) (acc : List GroupEntry),
      ((rs.foldl addReport acc).map (fun e => e.count)).sum =
        (acc.map (fun e => e.count)).sum + rs.length
  | [], acc => by simp
  | r :: rs, acc => by
    simp only [List.foldl_cons, List.length_cons,
      foldl_addReport_sum rs (addReport acc r), addReport_sum acc r]
    omega

theorem foldl_addReport_cnt :
    ∀ (rs : List Report) (acc : List GroupEntry) (k : String × String × Nat),
      entriesCount (rs.foldl addReport acc) k = entriesCount acc k + reportCountK rs k
  | [], acc, k => by simp [reportCountK]
  | r :: rs, acc, k => by
    rw [List.foldl_cons, foldl_addReport_cnt rs (addReport acc r) k,
      addReport_cnt acc r k, reportCountK_cons]
    omega

theorem foldl_addReport_occ :
    ∀ (rs : List Report) (acc : List GroupEntry) (k : String × String × Nat),
      (occK acc k = 0 →
        occK (rs.foldl addReport acc) k = if 0 < reportCountK rs k then 1 else 0)
      ∧ (occK acc k = 1 → occK (rs.foldl addReport acc) k = 1)
  | [], acc, k => by
    constructor
    · intro h0
      simp [reportCountK, h0]
    · intro h1
      simpa using h1
  | r :: rs, acc, k => by
    have hocc := addReport_occ acc r k
    have IH := foldl_addReport_occ rs (addReport acc r) k
    constructor
    · intro h0
      by_cases hk : rkey r = k
      · have hocc0 : occK acc (rkey r) = 0 := by rw [hk]; exact h0
        have h1 : occK (addReport acc r) k = 1 := by
          rw [hocc, if_pos ⟨hk, hocc0⟩, h0]
        have hcnt : 0 < reportCountK (r :: rs) k := by
          rw [reportCountK_cons, if_pos hk]
          omega
        rw [List.foldl_cons, IH.2 h1, if_pos hcnt]
      · have h00 : occK (addReport acc r) k = 0 := by
          rw [hocc, if_neg (fun hc => hk hc.1)]
          exact h0
        have hcnt : reportCountK (r :: rs) k = reportCountK rs k := by
          rw [reportCountK_cons, if_neg hk]
          omega
        rw [List.foldl_cons, IH.1 h00, hcnt]
    · intro h1
      have h11 : occK (addReport acc r) k = 1 := by
        rcases Decidable.em (rkey r = k ∧ occK acc (rkey r) = 0) with hc | hc
        · exfalso
          obtain ⟨hk, hz⟩ := hc
          rw [hk] at hz
          omega
        · rw [hocc, if_neg hc]
          exact h1
      rw [List.foldl_cons, IH.2 h11]

theorem filter_singleton_of_countP_one {α : Type} (p : α → Bool) (l : List α) (a : α)
    (hc : l.countP p = 1) (ha : a ∈ l) (hpa : p a = true) : l.filter p = [a] := by
  have hlen : (l.filter p).length = 1 := by
    rw [← l.countP_eq_length_filter p]
    exact hc
  have hmem : a ∈ l.filter p := List.mem_filter.mpr ⟨ha, hpa⟩
  match hf : l.filter p, hlen with
  | [x], _ =>
    rw [hf] at hmem
    have : a = x := by simpa using hmem
    rw [this]

theorem isPrefixOf_append (l t : List Char) : l.isPrefixOf (l ++ t) = true := by
  induction l with
  | nil => simp [List.isPrefixOf]
  | cons c l ih => simp [List.isPrefixOf, ih]

theorem strStartsWith_append (pre s : String) : strStartsWith (pre ++ s) pre = true := by
  rw [strStartsWith, String.data_append]
  exact isPrefixOf_append pre.data s.data

theorem strDrop_append (pre s : String) : strDrop (pre ++ s) pre.data.length = s := by
  rw [strDrop, String.data_append, List.drop_left]

theorem countP_middle (l1 l2 : List (String × Vote)) (a : String × Vote)
    (p : String × Vote → Bool) :
    (l1 ++ a :: l2).countP p = l1.countP p + l2.countP p + (if p a then 1 else 0) := by
  rw [List.countP_append, List.countP_cons]
  omega

theorem map_fst_setUserVote (uv : List (String × Vote)) (u : String) (v : Vote) :
    (setUserVote uv u v).map Prod.fst = uv.map Prod.fst := by
  rw [setUserVote, List.map_map]
  apply List.map_congr_left
  intro p hp
  by_cases h : p.1 = u
  · simp [h]
  · simp [h]

theorem castVote_preserves (s : VoteState) (u : String) (v : Vote) (h : VoteInv s) :
    VoteInv (castVote s u v) := by
  obtain ⟨hup, hdn, hnd⟩ := h
  cases hcv : currentVote s u with
  | none =>
    have hfind : s.userVotes.find? (fun p => p.1 == u) = none := by
      unfold currentVote at hcv
      exact Option.map_eq_none'.mp hcv
    have hnotin : u ∉ s.userVotes.map Prod.fst := by
      intro hmem
      obtain ⟨p, hp, hpu⟩ := List.mem_map.mp hmem
      have hfalse := List.find?_eq_none.mp hfind p hp
      exact hfalse (by simp [hpu])
    cases v with
    | up =>
      simp only [castVote, hcv]
      exact ⟨by simp [upCount, List.countP_cons, hup],
        by simp [downCount, List.countP_cons, hdn],
        by simpa using List.nodup_cons.mpr ⟨hnotin, hnd⟩⟩
    | down =>
      simp only [castVote, hcv]
      exact ⟨by simp [upCount, List.countP_cons, hup],
        by simp [downCount, List.countP_cons, hdn],
        by simpa using List.nodup_cons.mpr ⟨hnotin, hnd⟩⟩
  | some v0 =>
    have hz := hcv
    unfold currentVote at hz
    obtain ⟨q, hq, hq2⟩ := Option.map_eq_some'.mp hz
    have hq1 : q.1 = u := by
      have hqp := List.find?_some hq
      simpa using hqp
    have hqeq : q = (u, v0) := Prod.ext hq1 hq2
    rw [hqeq] at hq
    obtain ⟨-, l1, l2, hsplit, hl1⟩ := find?_split _ _ _ hq
    have hkeys : s.userVotes.map Prod.fst = l1.map Prod.fst ++ u :: l2.map Prod.fst := by
      rw [hsplit]
      simp
    have hnd2 : (u :: (l1.map Prod.fst ++ l2.map Prod.fst)).Nodup :=
      (List.perm_middle.nodup_iff).mp (hkeys ▸ hnd)
    have hul2 : u ∉ l2.map Prod.fst := by
      intro hmem
      exact (List.nodup_cons.mp hnd2).1 (List.mem_append.mpr (Or.inr hmem))
    have hset : setUserVote s.userVotes u v = l1 ++ (u, v) :: l2 := by
      rw [hsplit, setUserVote, List.map_append, List.map_cons]
      congr 1
      · have hid : ∀ p ∈ l1, (if p.1 == u then ((p.1 : String), v) else p) = p := by
          intro p hp
          rw [if_neg (by simp [hl1 p hp])]
        rw [List.map_congr_left hid]
        exact List.map_id' l1
      · congr 1
        · simp
        · have hid : ∀ p ∈ l2, (if p.1 == u then ((p.1 : String), v) else p) = p := by
            intro p hp
            have hpne : ¬ p.1 = u := by
              intro hpu
              exact hul2 (List.mem_map.mpr ⟨p, hp, hpu⟩)
            rw [if_neg (by simp [hpne])]
          rw [List.map_congr_left hid]
          exact List.map_id' l2
    have hupOld : upCount s.userVotes =
        l1.countP (fun p => p.2 == Vote.up) + l2.countP (fun p => p.2 == Vote.up) +
          (if ((u, v0).2 == Vote.up) then 1 else 0) := by
      rw [upCount, hsplit]
      exact countP_middle l1 l2 (u, v0) _
    have hdnOld : downCount s.userVotes =
        l1.countP (fun p => p.2 == Vote.down) + l2.countP (fun p => p.2 == Vote.down) +
          (if ((u, v0).2 == Vote.down) then 1 else 0) := by
      rw [downCount, hsplit]
      exact countP_middle l1 l2 (u, v0) _
    have hupNew : upCount (setUserVote s.userVotes u v) =
        l1.countP (fun p => p.2 == Vote.up) + l2.countP (fun p => p.2 == Vote.up) +
          (if ((u, v).2 == Vote.up) then 1 else 0) := by
      rw [upCount, hset]
      exact countP_middle l1 l2 (u, v) _
    have hdnNew : downCount (setUserVote s.userVotes u v) =
        l1.countP (fun p => p.2 == Vote.down) + l2.countP (fun p => p.2 == Vote.down) +
          (if ((u, v).2 == Vote.down) then 1 else 0) := by
      rw [downCount, hset]
      exact countP_middle l1 l2 (u, v) _
    have hndNew : ((setUserVote s.userVotes u v).map Prod.fst).Nodup := by
      rw [map_fst_setUserVote]
      exact hnd
    by_cases hvv : v0 = v
    · simp only [castVote, hcv, if_pos hvv]
      exact ⟨hup, hdn, hnd⟩
    · cases v0 with
      | up =>
        cases v with
        | up => exact absurd rfl hvv
        | down =>
          simp only [castVote, hcv, if_neg hvv]
          refine ⟨?_, ?_, hndNew⟩
          · rw [hupNew, hup, hupOld]
            simp
          · rw [hdnNew, hdn, hdnOld]
            simp
      | down =>
        cases v with
        | down => exact absurd rfl hvv
        | up =>
          simp only [castVote, hcv, if_neg hvv]
          refine ⟨?_, ?_, hndNew⟩
          · rw [hupNew, hup, hupOld]
            simp
          · rw [hdnNew, hdn, hdnOld]
            simp
      
theorem applyVotes_inv :
    ∀ (ops : List (String × Vote)) (s : VoteState), VoteInv s → VoteInv (applyVotes ops s)
  | [], s, h => h
  | op :: ops, s, h =>
    applyVotes_inv ops (castVote s op.1 op.2) (castVote_preserves s op.1 op.2 h)

/-- C1: the claim states that a delete requested by a user other than the
report's creator fails with Unauthorized and leaves the report in the store,
while a delete by the creator removes it.  The code performs no ownership
check: `handle_callback` passes only the parsed report id to
`delete_report_from_db`, which deletes by id alone.  Evaluated at the failing
input — a store holding one report created by user `"1111"` and a delete
request from user `"2222"` — the delete succeeds, empties the store, and a
subsequent `find_one` returns `none`. -/
theorem delete_ignores_requester :
    demoReport.userId = "1111"
    ∧ handle_confirm_delete [demoReport] "2222" "507f1f77bcf86cd799439011" = (true, [])
    ∧ find_one ([] : List Report) "507f1f77bcf86cd799439011" = none := by
  decide

/-- C2: after every `castVote` (first cast, switch, or idempotent repeat) the
cached counters equal the aggregates of `userVotes` — `upvotes` counts the UP
entries and `downvotes` the DOWN entries — and the per-user record keeps at
most one entry per user; consequently the invariant holds after any sequence
of votes against a fresh report.  The engine is modelled from the spec (§4.5)
because the repository's `src/` holds no voting code. -/
theorem castVote_tally_invariant (s : VoteState) (u : String) (v : Vote)
    (ops : List (String × Vote)) :
    (VoteInv s → VoteInv (castVote s u v)) ∧ VoteInv (applyVotes ops freshVoteState) :=
  ⟨castVote_preserves s u v,
   applyVotes_inv ops freshVoteState ⟨rfl, rfl, List.nodup_nil⟩⟩

/-- Witness for C2 at concrete inputs: one cast on a fresh report, and the
replay of the sequence up(a), down(b), down(a) (a first cast, another user's
cast, and a switch). -/
theorem castVote_tally_invariant_witness :
    VoteInv (castVote freshVoteState "a" Vote.up)
    ∧ VoteInv (applyVotes [("a", Vote.up), ("b", Vote.down), ("a", Vote.down)]
        freshVoteState) :=
  ⟨(castVote_tally_invariant freshVoteState "a" Vote.up []).1 ⟨rfl, rfl, List.nodup_nil⟩,
   (castVote_tally_invariant freshVoteState "a" Vote.up
      [("a", Vote.up), ("b", Vote.down), ("a", Vote.down)]).2⟩

/-- C3: the claim states `startInclusive` is local midnight of "now" in the
rail line's timezone.  At epoch 1700000000 (local 2023-11-14 23:13:20 in
Algiers) local midnight is epoch 1699916400, but the code computes start
1699919280 — local 00:48:00 — because `replace(tzinfo=...)` attaches the pytz
zone's LMT offset (+00:12) instead of CET (+01:00).  A report created exactly
at local midnight therefore falls outside the code's window and is dropped by
the today-filter, contradicting the claim (and spec §8, which requires a
report exactly at local midnight to be included). -/
theorem day_range_excludes_local_midnight :
    get_current_day_range_in_algeria 1700000000 = (1699919280, 1700005680)
    ∧ currentWindowSpec 1700000000 = (1699916400, 1700002800)
    ∧ midnightReport.timestamp = (currentWindowSpec 1700000000).1
    ∧ get_all_reports_from_db_filtered [midnightReport] 1700000000 none = [] := by
  decide

/-- C4: `nextDeparture` returns the first entry of the station's timetable
list that is strictly greater than the reference time of day — an entry equal
to the reference is excluded, the result is `none` exactly when no entry
exceeds the reference (hence a reference after the last departure yields
`none`), an absent station yields `none` rather than an error, and the
worked example from the spec holds with 06:00/06:30/07:00 as minutes
360/390/420 and references 06:15 = 375, 07:00 = 420, 05:00 = 300. -/
theorem nextDeparture_first_after (sched : List (String × List Nat))
    (station : String) (ref : Nat) :
    (∀ t, nextDeparture sched station ref = some t →
      ref < t ∧ ∃ l1 l2, scheduleGet sched station = l1 ++ t :: l2 ∧ ∀ x ∈ l1, ¬ ref < x)
    ∧ (nextDeparture sched station ref = none ↔ ∀ t ∈ scheduleGet sched station, t ≤ ref)
    ∧ (sched.find? (fun p => p.1 == station) = none → nextDeparture sched station ref = none)
    ∧ nextDeparture [("S", [360, 390, 420])] "S" 375 = some 390
    ∧ nextDeparture [("S", [360, 390, 420])] "S" 420 = none
    ∧ nextDeparture [("S", [360, 390, 420])] "S" 300 = some 360 := by
  refine ⟨?_, ?_, ?_, by decide, by decide, by decide⟩
  · intro t ht
    obtain ⟨hp, l1, l2, heq, hall⟩ := find?_split _ _ _ ht
    refine ⟨of_decide_eq_true hp, l1, l2, heq, ?_⟩
    intro x hx
    exact of_decide_eq_false (hall x hx)
  · rw [nextDeparture, List.find?_eq_none]
    constructor
    · intro h t ht
      exact Nat.le_of_not_lt (fun hlt => h t ht (decide_eq_true hlt))
    · intro h t ht hd
      exact absurd (of_decide_eq_true hd) (Nat.not_lt.mpr (h t ht))
  · intro h
    simp [nextDeparture, scheduleGet, h]

/-- Witness for C4 at concrete inputs: the absent-station hypothesis and the
some-result hypothesis are discharged at the example timetable. -/
theorem nextDeparture_first_after_witness :
    nextDeparture [("S", [360, 390, 420])] "X" 100 = none
    ∧ (375 < 390 ∧ ∃ l1 l2, scheduleGet [("S", [360, 390, 420])] "S" = l1 ++ 390 :: l2
        ∧ ∀ x ∈ l1, ¬ 375 < x) :=
  ⟨(nextDeparture_first_after [("S", [360, 390, 420])] "X" 100).2.2.1 (by decide),
   (nextDeparture_first_after [("S", [360, 390, 420])] "S" 375).1 390 (by decide)⟩

/-- C5: the output of `group_reports_by_minute` is ordered descending (most
recent first) by the minute-truncated time of day displayed for each entry. -/
theorem group_reports_sorted_desc (rs : List Report) :
    (group_reports_by_minute rs).Pairwise
      (fun e1 e2 => entryTimeOfDay e2 ≤ entryTimeOfDay e1) := by
  have h := sortBy_pairwise (fun e1 e2 => decide (entryTimeOfDay e2 ≤ entryTimeOfDay e1))
    (fun a b => by
      rcases Nat.le_total (entryTimeOfDay b) (entryTimeOfDay a) with h | h
      · exact Or.inl (decide_eq_true h)
      · exact Or.inr (decide_eq_true h))
    (fun a b c hab hbc => decide_eq_true
      (le_trans (of_decide_eq_true hbc) (of_decide_eq_true hab)))
    (rs.foldl addReport [])
  exact h.imp (fun hb => of_decide_eq_true hb)

/-- C6 counterexample: the claim states that a station name or direction value
outside the fixed catalog/enum is rejected as InvalidInput.  Evaluated on a
two-station catalog, the callback `station_Nowhere` for an unknown station is
answered with the normal "no trains remaining" message (not the unknown-command
rejection), a missing direction value is silently treated as the return
direction, and `report_station_Nowhere` stores the unknown station for a new
report without any validation. -/
theorem station_invalid_not_rejected :
    handle_station_callback [("Agha", [360, 390])] [("Agha", [400])] (some DIRECTION_GO)
        "station_Nowhere" 300 = CallbackOutcome.trainMsg "Nowhere" none
    ∧ handle_station_callback [("Agha", [360, 390])] [("Agha", [400])] none
        "station_Agha" 300 = CallbackOutcome.trainMsg "Agha" (some 400)
    ∧ handle_report_station "report_station_Nowhere" = some "Nowhere" := by
  decide

/-- C6 amended: for every station string supplied by the boundary layer —
member of the catalog or not — the `station_` callback answers with the normal
next-train message for that station (an absent station simply behaves as one
with an empty timetable), any direction value other than `"go"` (including an
unset one) selects the return schedule, and `report_station_` stores the
supplied station unvalidated; no input is rejected as InvalidInput. -/
theorem station_callback_accepts_any_station (goSched retSched : List (String × List Nat))
    (d : Option String) (s : String) (now : Nat) :
    handle_station_callback goSched retSched d ("station_" ++ s) now =
      CallbackOutcome.trainMsg s
        (if d == some DIRECTION_GO then nextDeparture goSched s now
         else nextDeparture retSched s now)
    ∧ handle_report_station ("report_station_" ++ s) = some s := by
  have h1 : strStartsWith ("station_" ++ s) "station_" = true :=
    strStartsWith_append "station_" s
  have h2 : strDrop ("station_" ++ s) 8 = s := strDrop_append "station_" s
  have h3 : strStartsWith ("report_station_" ++ s) "report_station_" = true :=
    strStartsWith_append "report_station_" s
  have h4 : strDrop ("report_station_" ++ s) 15 = s := strDrop_append "report_station_" s
  constructor
  · simp only [handle_station_callback, h1, if_true, h2]
    by_cases hd : (d == some DIRECTION_GO) = true
    · rw [if_pos hd, if_pos hd]
    · rw [if_neg hd, if_neg hd]
  · simp only [handle_report_station, h3, if_true, h4]

/-- C7: `group_reports_by_minute` partitions its input by the composite key
(station, direction, minute-truncated timestamp): the empty input yields the
empty output; the counts of all emitted entries sum to the input length; for
every key there is exactly one entry when the key's partition is non-empty and
none otherwise; and each emitted entry's count equals the size of its key's
partition. -/
theorem group_reports_partition (rs : List Report) :
    group_reports_by_minute ([] : List Report) = []
    ∧ ((group_reports_by_minute rs).map (fun e => e.count)).sum = rs.length
    ∧ (∀ k : String × String × Nat,
        occK (group_reports_by_minute rs) k = if 0 < reportCountK rs k then 1 else 0)
    ∧ ∀ e ∈ group_reports_by_minute rs, e.count = reportCountK rs (ekey e) := by
  have hperm : (group_reports_by_minute rs).Perm (rs.foldl addReport []) :=
    sortBy_perm _ _
  refine ⟨rfl, ?_, ?_, ?_⟩
  · have h1 : ((group_reports_by_minute rs).map (fun e => e.count)).Perm
        ((rs.foldl addReport []).map (fun e => e.count)) := hperm.map _
    rw [h1.sum_eq, foldl_addReport_sum rs []]
    simp
  · intro k
    have h2 : occK (group_reports_by_minute rs) k = occK (rs.foldl addReport []) k :=
      hperm.countP_eq _
    rw [h2, (foldl_addReport_occ rs [] k).1 rfl]
  · intro e he
    have hkpos : 0 < occK (group_reports_by_minute rs) (ekey e) := by
      rw [occK]
      exact List.countP_pos_iff.mpr ⟨e, he, by simp⟩
    have h3 : occK (group_reports_by_minute rs) (ekey e) =
        if 0 < reportCountK rs (ekey e) then 1 else 0 := by
      have h2 : occK (group_reports_by_minute rs) (ekey e) =
          occK (rs.foldl addReport []) (ekey e) := hperm.countP_eq _
      rw [h2, (foldl_addReport_occ rs [] (ekey e)).1 rfl]
    have hocc1 : occK (group_reports_by_minute rs) (ekey e) = 1 := by
      by_cases hrc : 0 < reportCountK rs (ekey e)
      · rw [h3, if_pos hrc]
      · rw [h3, if_neg hrc] at hkpos
        omega
    have hfilter : (group_reports_by_minute rs).filter (fun e2 => decide (ekey e2 = ekey e))
        = [e] :=
      filter_singleton_of_countP_one _ _ e hocc1 he (by simp)
    have hcnt : entriesCount (group_reports_by_minute rs) (ekey e) = e.count := by
      rw [entriesCount, hfilter]
      simp
    have hcnt2 : entriesCount (group_reports_by_minute rs) (ekey e) =
        entriesCount (rs.foldl addReport []) (ekey e) := by
      rw [entriesCount, entriesCount]
      exact ((hperm.filter _).map (fun e => e.count)).sum_eq
    rw [← hcnt, hcnt2, foldl_addReport_cnt rs [] (ekey e)]
    simp [entriesCount]

/-- Witness for C7 at a concrete snapshot: two reports of station A in the
same minute and one of station B; the A entry's count equals its partition
size. -/
theorem group_reports_partition_witness :
    (⟨"A", "go", 60, 2⟩ : GroupEntry).count =
      reportCountK [(⟨"i1", "A", "go", 3600, "u"⟩ : Report), ⟨"i2", "A", "go", 3610, "u"⟩,
        ⟨"i3", "B", "go", 7200, "u"⟩] (ekey ⟨"A", "go", 60, 2⟩) :=
  (group_reports_partition
      [(⟨"i1", "A", "go", 3600, "u"⟩ : Report), ⟨"i2", "A", "go", 3610, "u"⟩,
        ⟨"i3", "B", "go", 7200, "u"⟩]).2.2.2
    ⟨"A", "go", 60, 2⟩ (by decide)

/-- C8: for a direction's report snapshot, the station list produced by the
view-reports flow contains exactly the stations having at least one report
(each once), ordered ascending by the station's earliest report timestamp,
where `earliestSighting` is genuinely that group's minimum `createdAt`:
attained by some report of the station and a lower bound for all of them. -/
theorem stations_by_earliest_sighting (rs : List Report) :
    (∀ s, s ∈ sorted_stations_by_time rs ↔ ∃ r ∈ rs, r.station = s)
    ∧ (sorted_stations_by_time rs).Nodup
    ∧ (sorted_stations_by_time rs).Pairwise
        (fun a b => earliestSighting rs a ≤ earliestSighting rs b)
    ∧ ∀ s ∈ sorted_stations_by_time rs,
        (∃ r ∈ rs, r.station = s ∧ r.timestamp = earliestSighting rs s)
        ∧ ∀ r ∈ rs, r.station = s → earliestSighting rs s ≤ r.timestamp := by
  have hperm : (sorted_stations_by_time rs).Perm
      (dedupFirst (rs.map fun r => r.station)) := sortBy_perm _ _
  have hmem : ∀ s, s ∈ sorted_stations_by_time rs ↔ ∃ r ∈ rs, r.station = s := by
    intro s
    rw [hperm.mem_iff, dedupFirst, dedupKeep_mem]
    simp [List.mem_map]
  refine ⟨hmem, ?_, ?_, ?_⟩
  · exact hperm.nodup_iff.mpr (dedupKeep_nodup _ _)
  · have h := sortBy_pairwise
      (fun a b => decide (earliestSighting rs a ≤ earliestSighting rs b))
      (fun a b => by
        rcases Nat.le_total (earliestSighting rs a) (earliestSighting rs b) with h | h
        · exact Or.inl (decide_eq_true h)
        · exact Or.inr (decide_eq_true h))
      (fun a b c hab hbc => decide_eq_true
        (le_trans (of_decide_eq_true hab) (of_decide_eq_true hbc)))
      (dedupFirst (rs.map fun r => r.station))
    exact h.imp fun hb => of_decide_eq_true hb
  · intro s hs
    obtain ⟨r0, hr0, hr0s⟩ := (hmem s).mp hs
    have hfil : r0 ∈ rs.filter (fun r => r.station == s) :=
      List.mem_filter.mpr ⟨hr0, by simp [hr0s]⟩
    have hne : rs.filter (fun r => r.station == s) ≠ [] := List.ne_nil_of_mem hfil
    obtain ⟨⟨rm, hrm, hrmt⟩, hmin⟩ := minTimestamp_spec _ hne
    constructor
    · obtain ⟨hrm2, hrm3⟩ := List.mem_filter.mp hrm
      exact ⟨rm, hrm2, by simpa using hrm3, hrmt⟩
    · intro r hr hrs
      have hrfil : r ∈ rs.filter (fun r => r.station == s) :=
        List.mem_filter.mpr ⟨hr, by simp [hrs]⟩
      exact hmin r hrfil

/-- Witness for C8 at a concrete snapshot of two stations: station A is in the
output, and its earliest sighting bounds its report's timestamp. -/
theorem stations_by_earliest_sighting_witness :
    "A" ∈ sorted_stations_by_time
        [(⟨"i1", "A", "go", 200, "u"⟩ : Report), ⟨"i2", "B", "go", 100, "u"⟩]
    ∧ earliestSighting
        [(⟨"i1", "A", "go", 200, "u"⟩ : Report), ⟨"i2", "B", "go", 100, "u"⟩] "A" ≤ 200 :=
  ⟨((stations_by_earliest_sighting
      [(⟨"i1", "A", "go", 200, "u"⟩ : Report), ⟨"i2", "B", "go", 100, "u"⟩]).1 "A").mpr
    ⟨⟨"i1", "A", "go", 200, "u"⟩, by decide, rfl⟩,
   ((stations_by_earliest_sighting
      [(⟨"i1", "A", "go", 200, "u"⟩ : Report), ⟨"i2", "B", "go", 100, "u"⟩]).2.2.2 "A"
      (by decide)).2 ⟨"i1", "A", "go", 200, "u"⟩ (by decide) rfl⟩

/-- C9: `get_all_stations_ordered` returns the go-direction station keys in
order followed by the return-direction keys, deduplicated preserving first
occurrence: the result is a duplicate-free sublist of the concatenation with
the same members, its elements are ordered by their first-occurrence position
in the concatenation, and the worked example OUTBOUND = [A,B,C], INBOUND =
[C,D] yields [A,B,C,D].  Determinism is inherent: the embedding is a pure
function of the two key lists. -/
theorem all_stations_ordered_spec (go ret : List String) :
    List.Sublist (get_all_stations_ordered go ret) (go ++ ret)
    ∧ (get_all_stations_ordered go ret).Nodup
    ∧ (∀ x, x ∈ get_all_stations_ordered go ret ↔ x ∈ go ++ ret)
    ∧ (get_all_stations_ordered go ret).Pairwise
        (fun x y => (go ++ ret).indexOf x < (go ++ ret).indexOf y)
    ∧ get_all_stations_ordered ["A", "B", "C"] ["C", "D"] = ["A", "B", "C", "D"] := by
  refine ⟨dedupKeep_sublist _ _, dedupKeep_nodup _ _, ?_,
    dedupKeep_pairwise_indexOf _ _, by decide⟩
  intro x
  show x ∈ dedupKeep [] (go ++ ret) ↔ x ∈ go ++ ret
  rw [dedupKeep_mem]
  simp

/-- Witness for C9: the membership characterization applied at the worked
example. -/
theorem all_stations_ordered_spec_witness :
    "D" ∈ get_all_stations_ordered ["A", "B", "C"] ["C", "D"] :=
  ((all_stations_ordered_spec ["A", "B", "C"] ["C", "D"]).2.2.1 "D").mpr (by decide)

/-- C10: for every string that is not a syntactically valid ObjectId,
`delete_report_from_db` returns the failure result `false` and the store it
was given, unchanged — no delete is issued against the store (totality of the
embedding reflects that no exception escapes: the source validates with
`ObjectId.is_valid` before constructing an `ObjectId`). -/
theorem delete_invalid_id_rejected (store : List Report) (s : String)
    (h : is_valid_object_id s = false) :
    delete_report_from_db store s = (false, store) := by
  simp [delete_report_from_db, h]

/-- Witness for C10: a malformed id string is rejected and the store is
returned unchanged. -/
theorem delete_invalid_id_rejected_witness :
    is_valid_object_id "not-a-valid-id" = false
    ∧ delete_report_from_db [demoReport] "not-a-valid-id" = (false, [demoReport]) :=
  ⟨by decide, delete_invalid_id_rejected [demoReport] "not-a-valid-id" (by decide)⟩
